import Mathlib

/-!
Verification development for the `compress-to-url` codec.

The embedding models the byte-level variant of `src/index.ts` (the one
matched by the repository's test suite: 90-character-class alphabet,
byte-level colon framing).  JavaScript values are modelled as follows:
`Uint8Array` / byte buffers become `List Nat` (each entry `< 256`),
JS strings become `List Char`, the `BigInt` bit accumulator becomes `Nat`
(arbitrary precision, always non-negative here), JS `Number` arithmetic
in the decoder's length estimate becomes `Int` with `Int.fdiv` for
`Math.floor` of a quotient, and fallible operations return `Except`.
The gzip backend (`zlib.gzip` / `CompressionStream`) is external library
code, not part of this repository; theorems about the facade take the
deflate/inflate pair as explicit function parameters together with the
round-trip facts the gzip format provides.
-/

/-- Error kinds surfaced by the codec (spec §7).  `invalidSymbol` is the
`'Invalid Base85 char'` throw, `missingDelimiter` the
`'MIME type not found in payload'` throw, `invalidInputType` the input
type-mismatch throws in `compressToUrl`, and `payloadTooLarge` carries the
actual and allowed sizes from the size-check throw. -/
inductive CodecError : Type where
  | invalidSymbol : CodecError
  | missingDelimiter : CodecError
  | invalidInputType : CodecError
  | payloadTooLarge : (actual : Nat) → (allowed : Nat) → CodecError
deriving DecidableEq

/-- Decidable equality for `Except`, so concrete codec results can be
settled by `decide`. -/
def exceptDecEq {ε α : Type} [DecidableEq ε] [DecidableEq α] :
    (a b : Except ε α) → Decidable (a = b)
  | .error e1, .error e2 =>
    match decEq e1 e2 with
    | isTrue h => isTrue (by rw [h])
    | isFalse h => isFalse (fun hh => h (by injection hh))
  | .error _, .ok _ => isFalse (fun hh => by injection hh)
  | .ok _, .error _ => isFalse (fun hh => by injection hh)
  | .ok a, .ok b =>
    match decEq a b with
    | isTrue h => isTrue (by rw [h])
    | isFalse h => isFalse (fun hh => h (by injection hh))

instance {ε α : Type} [DecidableEq ε] [DecidableEq α] : DecidableEq (Except ε α) :=
  exceptDecEq

/-- The module-level `alphabet` constant of `src/index.ts`:
`"0123456789ABCDEFGHIJKLMNOPQRSTUVWXYZabcdefghijklmnopqrstuvwxyz"`
followed by the punctuation run (backquote, braces and quotes written with
character escapes). -/
def alphabet : List Char :=
  ['0', '1', '2', '3', '4', '5', '6', '7', '8', '9',
   'A', 'B', 'C', 'D', 'E', 'F', 'G', 'H', 'I', 'J', 'K', 'L', 'M',
   'N', 'O', 'P', 'Q', 'R', 'S', 'T', 'U', 'V', 'W', 'X', 'Y', 'Z',
   'a', 'b', 'c', 'd', 'e', 'f', 'g', 'h', 'i', 'j', 'k', 'l', 'm',
   'n', 'o', 'p', 'q', 'r', 's', 't', 'u', 'v', 'w', 'x', 'y', 'z',
   '!', '(', ')', '*', '+', '-', ';', '<', '=', '>', '?', '@', '^', '_',
   '\x60', '\x7b', '|', '\x7d', '~', '\x27', '\x2c', ':', '/', '\x22',
   '[', ']']

/-- `alphabet[value]` for the 5-bit values the encoder produces (always in
range, the default is never reached). -/
def toChar (v : Nat) : Char := alphabet.getD v '?'

/-- JS `String.prototype.indexOf` on the alphabet: index of the first
occurrence, `none` for the `-1` case. -/
def jsIndexOf (l : List Char) (c : Char) : Option Nat :=
  match l with
  | [] => none
  | d :: rest =>
    if d = c then some 0
    else match jsIndexOf rest c with
      | none => none
      | some i => some (i + 1)

/-- `Array.prototype.indexOf` on a byte buffer (used by
`decompressedBytes.indexOf(58)`). -/
def jsIndexOfNat (l : List Nat) (x : Nat) : Option Nat :=
  match l with
  | [] => none
  | d :: rest =>
    if d = x then some 0
    else match jsIndexOfNat rest x with
      | none => none
      | some i => some (i + 1)

/-- The `while (bufferBits >= w)` extraction loop shared by encoder
(`w = 5`, mask `0x1f`) and decoder (`w = 8`, mask `0xff`): repeatedly take
the top `w` unconsumed bits `(buffer >> (bits - w)) & (2^w - 1)` while at
least `w` bits remain.  The first argument is fuel; `bits` itself is
always enough fuel since every iteration consumes `w ≥ 1` bits. -/
def emitLoop (w : Nat) : Nat → Nat → Nat → List Nat × Nat
  | 0, _, bits => ([], bits)
  | fuel + 1, buffer, bits =>
    if w ≤ bits then
      let v := (buffer >>> (bits - w)) % 2 ^ w
      let r := emitLoop w fuel buffer (bits - w)
      (v :: r.1, r.2)
    else ([], bits)

/-- The `for (const byte of bytes)` loop of `base85Encode`: shift each byte
into the accumulator and drain 5-bit symbols.  Returns the emitted 5-bit
values together with the final `(buffer, bufferBits)` state. -/
def encodeBytes : List Nat → Nat → Nat → List Nat × Nat × Nat
  | [], buffer, bits => ([], buffer, bits)
  | byte :: rest, buffer, bits =>
    let buffer2 := (buffer <<< 8) + byte
    let e := emitLoop 5 (bits + 8) buffer2 (bits + 8)
    let r := encodeBytes rest buffer2 e.2
    (e.1 ++ r.1, r.2.1, r.2.2)

/-- `base85Encode` of `src/index.ts`: drain the input through the 5-bit
loop; if 1–4 bits remain, left-pad them with zeros to a final symbol and
append `(totalBytes % 4 === 0 ? 0 : 4 - totalBytes % 4)` tilde filler
characters. -/
def base85Encode (bytes : List Nat) : List Char :=
  let st := encodeBytes bytes 0 0
  let core := st.1.map toChar
  if 0 < st.2.2 then
    let paddingBits := 5 - st.2.2
    let v := (st.2.1 <<< paddingBits) % 32
    let totalBytes := bytes.length
    let paddingNeeded := if totalBytes % 4 = 0 then 0 else 4 - totalBytes % 4
    core ++ [toChar v] ++ List.replicate paddingNeeded '~'
  else core

/-- `str.replace(/~+$/, '')`: strip the maximal run of trailing tildes. -/
def dropTrailingTildes (s : List Char) : List Char :=
  (s.reverse.dropWhile (fun c => c = '~')).reverse

/-- The decoder's raw length estimate
`Math.floor((trimmedStr.length * 5 - paddingChars * 8) / 8)`;
`Int.fdiv` is JS `Math.floor` of the (possibly negative) quotient. -/
def rawEstimate (s : List Char) : Int :=
  let trimmed := dropTrailingTildes s
  let paddingChars := s.length - trimmed.length
  Int.fdiv ((trimmed.length * 5 : Int) - (paddingChars * 8 : Int)) 8

/-- JS `x || 1` on a number that is an integer: `1` exactly when `x` is
(the falsy) `0`, otherwise `x` itself — including negative values. -/
def jsOrOne (x : Int) : Int := if x = 0 then 1 else x

/-- `totalBytesEstimate` of `base85Decode`. -/
def totalBytesEstimate (s : List Char) : Int := jsOrOne (rawEstimate s)

/-- `while (bytes.length > expectedLength) bytes.pop()`: drop bytes from
the end until the length is at most `expectedLength` (the decoder never
reaches this loop with a negative bound and a non-empty buffer, since
`estimate + paddingChars` is `floor(5 * coreLen / 8)` when the raw
estimate is non-zero and `1 + paddingChars` otherwise). -/
def popToLength (l : List Nat) (n : Int) : List Nat :=
  if (l.length : Int) ≤ n then l else l.take n.toNat

/-- The `for (const char of trimmedStr)` loop of `base85Decode`: look up
each character (throwing `'Invalid Base85 char'` on a miss), shift 5 bits
in, and drain 8-bit bytes.  Returns emitted bytes and the final
`(buffer, bufferBits)` state. -/
def decodeChars : List Char → Nat → Nat → Except CodecError (List Nat × Nat × Nat)
  | [], buffer, bits => .ok ([], buffer, bits)
  | c :: rest, buffer, bits =>
    match jsIndexOf alphabet c with
    | none => .error .invalidSymbol
    | some v =>
      let buffer2 := (buffer <<< 5) + v
      let e := emitLoop 8 (bits + 5) buffer2 (bits + 5)
      match decodeChars rest buffer2 e.2 with
      | .error err => .error err
      | .ok (bytes2, buf3, bits3) => .ok (e.1 ++ bytes2, buf3, bits3)

/-- `base85Decode` of `src/index.ts`: strip filler, estimate the byte
count, decode the core, flush a final left-shifted byte if 1–7 bits
remain, and pop down to `totalBytesEstimate + paddingChars` bytes. -/
def base85Decode (s : List Char) : Except CodecError (List Nat) :=
  let trimmed := dropTrailingTildes s
  let paddingChars := s.length - trimmed.length
  match decodeChars trimmed 0 0 with
  | .error e => .error e
  | .ok (bytes0, buffer, bits) =>
    let bytes1 := if 0 < bits then bytes0 ++ [(buffer <<< (8 - bits)) % 256] else bytes0
    let expectedLength := totalBytesEstimate s + (paddingChars : Int)
    .ok (popToLength bytes1 expectedLength)

/-- UTF-8 encoding of a single scalar value, as produced by JS
`TextEncoder`. -/
def utf8EncodeChar (c : Char) : List Nat :=
  let n := c.toNat
  if n < 0x80 then [n]
  else if n < 0x800 then [0xC0 + n / 0x40, 0x80 + n % 0x40]
  else if n < 0x10000 then
    [0xE0 + n / 0x1000, 0x80 + n / 0x40 % 0x40, 0x80 + n % 0x40]
  else
    [0xF0 + n / 0x40000, 0x80 + n / 0x1000 % 0x40, 0x80 + n / 0x40 % 0x40,
     0x80 + n % 0x40]

/-- `new TextEncoder().encode(s)` on a JS string modelled as its scalar
values. -/
def utf8Encode (s : List Char) : List Nat := (s.map utf8EncodeChar).flatten

/-- The JS `\s` (and `trim`) whitespace class used by
`input.replace(/\s+/g, ' ').trim()`. -/
def isJsWs (c : Char) : Bool :=
  let n := c.toNat
  n = 0x20 || n = 0x09 || n = 0x0a || n = 0x0b || n = 0x0c || n = 0x0d ||
  n = 0xa0 || n = 0x1680 || (0x2000 ≤ n && n ≤ 0x200a) ||
  n = 0x2028 || n = 0x2029 || n = 0x202f || n = 0x205f ||
  n = 0x3000 || n = 0xfeff

/-- `input.replace(/\s+/g, ' ')`: each maximal whitespace run becomes one
space.  The boolean tracks whether the previous character was part of a
run already replaced. -/
def collapseWsAux : Bool → List Char → List Char
  | _, [] => []
  | prevWs, c :: rest =>
    if isJsWs c then
      (if prevWs then [] else [' ']) ++ collapseWsAux true rest
    else c :: collapseWsAux false rest

/-- JS `String.prototype.trim`: drop whitespace from both ends. -/
def jsTrim (s : List Char) : List Char :=
  ((s.dropWhile isJsWs).reverse.dropWhile isJsWs).reverse

/-- `input.replace(/\s+/g, ' ').trim()` — the `normalizeWhitespace`
transformation of `compressToUrl`. -/
def normalizeWs (s : List Char) : List Char := jsTrim (collapseWsAux false s)

/-- The `inputType` option values `'string' | 'binary'`. -/
inductive InputType : Type where
  | string : InputType
  | binary : InputType
deriving DecidableEq, BEq

/-- The `outputType` option values `'string' | 'binary' | 'auto'`. -/
inductive OutputType : Type where
  | string : OutputType
  | binary : OutputType
  | auto : OutputType
deriving DecidableEq, BEq

/-- The `input` argument of `compressToUrl`: a JS string or a byte
buffer. -/
inductive CompressInput : Type where
  | str : List Char → CompressInput
  | bin : List Nat → CompressInput
deriving DecidableEq

/-- The `data` field of a decompress result.  `text b` stands for the JS
string `new TextDecoder().decode(b)` (represented by its UTF-8 bytes
`b`); `binary b` is the raw `Uint8Array`. -/
inductive DecompressData : Type where
  | text : List Nat → DecompressData
  | binary : List Nat → DecompressData
deriving DecidableEq

/-- Whether a decompress result came back as a JS string. -/
def DecompressData.isText : DecompressData → Bool
  | .text _ => true
  | .binary _ => false

/-- Default `maxSize` option of `compressToUrl`. -/
def defaultMaxSize : Nat := 2083

/-- The characters of `'text/html'`. -/
def textHtmlChars : List Char := ['t', 'e', 'x', 't', '/', 'h', 't', 'm', 'l']

/-- The characters of `'application/octet-stream'`. -/
def appOctetChars : List Char :=
  ['a', 'p', 'p', 'l', 'i', 'c', 'a', 't', 'i', 'o', 'n', '/',
   'o', 'c', 't', 'e', 't', '-', 's', 't', 'r', 'e', 'a', 'm']

/-- The UTF-8 bytes of `'application/json'`. -/
def appJsonBytes : List Nat :=
  utf8Encode ['a', 'p', 'p', 'l', 'i', 'c', 'a', 't', 'i', 'o', 'n', '/',
              'j', 's', 'o', 'n']

/-- Default `mimeType`:
`inputType === 'string' ? 'text/html' : 'application/octet-stream'`. -/
def resolveMime (mimeTypeOpt : Option (List Char)) (inputType : InputType) :
    List Char :=
  match mimeTypeOpt with
  | some m => m
  | none =>
    match inputType with
    | .string => textHtmlChars
    | .binary => appOctetChars

/-- Input validation and preparation of `compressToUrl`: a string input
under `inputType 'string'` is (optionally whitespace-normalized and)
UTF-8 encoded; a binary input under `inputType 'binary'` is taken as-is;
a shape mismatch throws. -/
def prepareData (input : CompressInput) (inputType : InputType)
    (normalizeWhitespace : Bool) : Except CodecError (List Nat) :=
  match input, inputType with
  | .str s, .string =>
    .ok (utf8Encode (if normalizeWhitespace then normalizeWs s else s))
  | .bin b, .binary => .ok b
  | _, _ => .error .invalidInputType

/-- `compressToUrl` (byte-level variant): build
`mimeType ++ ':' ++ data` as bytes, deflate through the supplied gzip
backend, radix-85 encode, and enforce `maxSize`.  The result pairs the
payload string with its length (`size`). -/
def compressToUrl (gzip : List Nat → List Nat) (input : CompressInput)
    (maxSize : Nat) (inputType : InputType) (mimeTypeOpt : Option (List Char))
    (normalizeWhitespace : Bool) : Except CodecError (List Char × Nat) :=
  match prepareData input inputType normalizeWhitespace with
  | .error e => .error e
  | .ok data =>
    let mimeType := resolveMime mimeTypeOpt inputType
    let mimePrefixBytes := utf8Encode (mimeType ++ [':'])
    let fullData := mimePrefixBytes ++ data
    let payload := base85Encode (gzip fullData)
    let size := payload.length
    if size > maxSize then .error (.payloadTooLarge size maxSize)
    else .ok (payload, size)

/-- The byte-level split of `decompressFromUrl`: find the first colon
byte (ASCII 58), throwing if there is none; the prefix is the MIME tag
and the remainder the payload bytes, untouched. -/
def unframeBytes (decompressedBytes : List Nat) :
    Except CodecError (List Nat × List Nat) :=
  match jsIndexOfNat decompressedBytes 58 with
  | none => .error .missingDelimiter
  | some colonIndex =>
    .ok (decompressedBytes.take colonIndex,
         decompressedBytes.drop (colonIndex + 1))

/-- `mimeType.startsWith('text/') || mimeType === 'application/json'`,
expressed on the MIME tag's bytes (for ASCII tags the two views
coincide; a decoded JS string has an ASCII prefix or is an ASCII string
exactly when its bytes are). -/
def isTextTypeBytes (mime : List Nat) : Bool :=
  mime.take 5 = [116, 101, 120, 116, 47] || mime = appJsonBytes

/-- `decompressFromUrl` (byte-level variant): radix-85 decode, inflate
through the supplied backend, split at the first colon byte, and choose
the representation: an explicit `outputType` is honored, `auto` returns
text exactly for `text/*` and `application/json` tags. -/
def decompressFromUrl (gunzip : List Nat → List Nat) (payload : List Char)
    (outputType : OutputType) :
    Except CodecError (DecompressData × List Nat) :=
  match base85Decode payload with
  | .error e => .error e
  | .ok compressedBytes =>
    let decompressedBytes := gunzip compressedBytes
    match unframeBytes decompressedBytes with
    | .error e => .error e
    | .ok (mimeType, dataBytes) =>
      let isTextType := isTextTypeBytes mimeType
      let returnAsString := outputType == .string ||
        (outputType == .auto && isTextType)
      if returnAsString then .ok (.text dataBytes, mimeType)
      else .ok (.binary dataBytes, mimeType)

/-- Big-endian value of a digit list in base `b` (the number the bit
accumulator holds after the digits have been shifted in). -/
def radix (b : Nat) (l : List Nat) : Nat := l.foldl (fun a x => a * b + x) 0

theorem radix_foldl (b : Nat) (l : List Nat) :
    ∀ a : Nat, l.foldl (fun acc x => acc * b + x) a = a * b ^ l.length + radix b l := by
  induction l with
  | nil => intro a; simp [radix]
  | cons x t ih =>
    intro a
    simp only [List.foldl_cons, List.length_cons, radix]
    rw [ih (a * b + x), ih (0 * b + x)]
    ring

theorem radix_nil (b : Nat) : radix b [] = 0 := rfl

theorem radix_cons (b x : Nat) (l : List Nat) :
    radix b (x :: l) = x * b ^ l.length + radix b l := by
  simp only [radix, List.foldl_cons]
  rw [radix_foldl]
  simp [radix]

theorem radix_append (b : Nat) (l1 l2 : List Nat) :
    radix b (l1 ++ l2) = radix b l1 * b ^ l2.length + radix b l2 := by
  simp only [radix, List.foldl_append]
  rw [radix_foldl]
  rfl

theorem radix_lt (b : Nat) (hb : 0 < b) (l : List Nat) (h : ∀ x ∈ l, x < b) :
    radix b l < b ^ l.length := by
  induction l with
  | nil => simpa [radix] using hb
  | cons x t ih =>
    rw [radix_cons]
    simp only [List.length_cons]
    have hx : x < b := h x (by simp)
    have ht : radix b t < b ^ t.length := ih (fun y hy => h y (by simp [hy]))
    calc x * b ^ t.length + radix b t < (x + 1) * b ^ t.length := by nlinarith
      _ ≤ b * b ^ t.length := Nat.mul_le_mul_right _ (by omega)
      _ = b ^ (t.length + 1) := by ring

theorem radix_ext (b : Nat) (hb : 0 < b) :
    ∀ l1 l2 : List Nat, l1.length = l2.length → (∀ x ∈ l1, x < b) →
      (∀ x ∈ l2, x < b) → radix b l1 = radix b l2 → l1 = l2 := by
  intro l1
  induction l1 with
  | nil => intro l2 hlen _ _ _; cases l2 <;> simp_all
  | cons x t ih =>
    intro l2 hlen h1 h2 hr
    cases l2 with
    | nil => simp at hlen
    | cons y u =>
      simp only [List.length_cons] at hlen
      have hlen' : t.length = u.length := by omega
      rw [radix_cons, radix_cons, hlen'] at hr
      have ht : radix b t < b ^ u.length := by
        rw [← hlen']; exact radix_lt b hb t (fun z hz => h1 z (by simp [hz]))
      have hu : radix b u < b ^ u.length := radix_lt b hb u (fun z hz => h2 z (by simp [hz]))
      have hxy : x = y := by
        rcases Nat.lt_trichotomy x y with h | h | h
        · exfalso
          have : (x + 1) * b ^ u.length ≤ y * b ^ u.length :=
            Nat.mul_le_mul_right _ (by omega)
          nlinarith
        · exact h
        · exfalso
          have : (y + 1) * b ^ u.length ≤ x * b ^ u.length :=
            Nat.mul_le_mul_right _ (by omega)
          nlinarith
      subst hxy
      have : radix b t = radix b u := by omega
      rw [ih u hlen' (fun z hz => h1 z (by simp [hz])) (fun z hz => h2 z (by simp [hz])) this]

theorem emitLoop_vals_lt (w fuel : Nat) :
    ∀ buffer bits v, v ∈ (emitLoop w fuel buffer bits).1 → v < 2 ^ w := by
  induction fuel with
  | zero => intro buffer bits v hv; simp [emitLoop] at hv
  | succ fuel ih =>
    intro buffer bits v hv
    by_cases h : w ≤ bits
    · simp only [emitLoop, if_pos h, List.mem_cons] at hv
      rcases hv with rfl | hv
      · exact Nat.mod_lt _ (Nat.pos_pow_of_pos w (by norm_num))
      · exact ih buffer (bits - w) v hv
    · simp [emitLoop, if_neg h] at hv

/-- Full functional specification of the `while (bufferBits >= w)` loop:
final bit count, number of emitted symbols, symbol bound, and the value
identity relating the emitted digits to the accumulator's low bits. -/
theorem emitLoop_spec (w : Nat) (hw : 0 < w) (fuel : Nat) :
    ∀ bits buffer, bits ≤ fuel →
      (emitLoop w fuel buffer bits).2 = bits % w ∧
      (emitLoop w fuel buffer bits).1.length = bits / w ∧
      buffer % 2 ^ bits =
        radix (2 ^ w) (emitLoop w fuel buffer bits).1 * 2 ^ (bits % w) +
          buffer % 2 ^ (bits % w) := by
  induction fuel with
  | zero =>
    intro bits buffer hb
    interval_cases bits
    simp [emitLoop, radix]
  | succ fuel ih =>
    intro bits buffer hb
    by_cases h : w ≤ bits
    · have hrec := ih (bits - w) buffer (by omega)
      obtain ⟨hbits, hlen, hval⟩ := hrec
      have hsplit : bits = (bits - w) + w := by omega
      have hmod : (bits - w) % w = bits % w := by
        conv_rhs => rw [hsplit]
        rw [Nat.add_mod_right]
      have hdiv : bits / w = (bits - w) / w + 1 := by
        conv_lhs => rw [hsplit]
        rw [Nat.add_div_right _ hw]
      simp only [emitLoop, if_pos h]
      refine ⟨by rw [hbits, hmod], by simp [hlen, hdiv], ?_⟩
      set m := bits - w with hm
      set r := emitLoop w fuel buffer m with hr
      rw [radix_cons]
      -- split the low `bits` bits of the buffer at position m
      have hsplit2 : buffer % 2 ^ bits =
          (buffer / 2 ^ m % 2 ^ w) * 2 ^ m + buffer % 2 ^ m := by
        conv_lhs => rw [hsplit, Nat.pow_add, Nat.mod_mul]
        ring
      have hshift : (buffer >>> m) % 2 ^ w = buffer / 2 ^ m % 2 ^ w := by
        rw [Nat.shiftRight_eq_div_pow]
      have hpow : (2 : Nat) ^ m = (2 ^ w) ^ (m / w) * 2 ^ (m % w) := by
        conv_lhs => rw [← Nat.div_add_mod m w]
        rw [Nat.pow_add, Nat.pow_mul]
      rw [hsplit2, hval, hshift, hlen]
      rw [hpow, hmod]
      ring
    · have hbw : bits < w := by omega
      simp only [emitLoop, if_neg h]
      rw [Nat.mod_eq_of_lt hbw]
      refine ⟨rfl, by simp [Nat.div_eq_of_lt hbw], ?_⟩
      simp [radix]

/-- Shifting a value `v < 2^w` into the accumulator extends its low bits:
the low `bits + w` bits of `buffer * 2^w + v` are the low `bits` bits of
`buffer` followed by `v`. -/
theorem shiftIn_mod (buffer bits w v : Nat) (hv : v < 2 ^ w) :
    (buffer * 2 ^ w + v) % 2 ^ (bits + w) = buffer % 2 ^ bits * 2 ^ w + v := by
  have h1 : buffer * 2 ^ w + v =
      2 ^ bits * 2 ^ w * (buffer / 2 ^ bits) + (buffer % 2 ^ bits * 2 ^ w + v) := by
    conv_lhs => rw [← Nat.div_add_mod buffer (2 ^ bits)]
    ring
  rw [Nat.pow_add, h1, Nat.mul_add_mod]
  have hm : buffer % 2 ^ bits < 2 ^ bits := Nat.mod_lt _ (Nat.pos_pow_of_pos _ (by norm_num))
  exact Nat.mod_eq_of_lt (by nlinarith)

theorem encodeBytes_vals_lt :
    ∀ (bytes : List Nat) (buffer bits v : Nat),
      v ∈ (encodeBytes bytes buffer bits).1 → v < 32 := by
  intro bytes
  induction bytes with
  | nil => intro buffer bits v hv; simp [encodeBytes] at hv
  | cons b t ih =>
    intro buffer bits v hv
    simp only [encodeBytes, List.mem_append] at hv
    rcases hv with hv | hv
    · simpa using emitLoop_vals_lt 5 (bits + 8) _ _ v hv
    · exact ih _ _ v hv

/-- Functional specification of the byte-consuming loop of
`base85Encode`: final accumulator and bit count, number of emitted
symbols, and the value identity between input bytes and emitted 5-bit
digits. -/
theorem encodeBytes_spec :
    ∀ (bytes : List Nat) (buffer bits : Nat), bits < 5 → (∀ x ∈ bytes, x < 256) →
      (encodeBytes bytes buffer bits).2.1 =
          buffer * (2 ^ 8) ^ bytes.length + radix (2 ^ 8) bytes ∧
      (encodeBytes bytes buffer bits).2.2 = (bits + 8 * bytes.length) % 5 ∧
      (encodeBytes bytes buffer bits).1.length = (bits + 8 * bytes.length) / 5 ∧
      buffer % 2 ^ bits * (2 ^ 8) ^ bytes.length + radix (2 ^ 8) bytes =
        radix (2 ^ 5) (encodeBytes bytes buffer bits).1 *
            2 ^ ((bits + 8 * bytes.length) % 5) +
          (encodeBytes bytes buffer bits).2.1 % 2 ^ ((bits + 8 * bytes.length) % 5) := by
  intro bytes
  induction bytes with
  | nil =>
    intro buffer bits h5 _
    simp [encodeBytes, radix, Nat.mod_eq_of_lt h5, Nat.div_eq_of_lt h5]
  | cons b t ih =>
    intro buffer bits h5 hlt
    have hb : b < 2 ^ 8 := by norm_num; exact hlt b (by simp)
    have hshl : buffer <<< 8 = buffer * 2 ^ 8 := Nat.shiftLeft_eq buffer 8
    obtain ⟨he2, helen, heval⟩ :=
      emitLoop_spec 5 (by norm_num) (bits + 8) (bits + 8) (buffer <<< 8 + b) le_rfl
    have he2lt : (emitLoop 5 (bits + 8) (buffer <<< 8 + b) (bits + 8)).2 < 5 := by
      rw [he2]; exact Nat.mod_lt _ (by norm_num)
    obtain ⟨hr1, hr2, hr3, hrval⟩ :=
      ih (buffer <<< 8 + b) (emitLoop 5 (bits + 8) (buffer <<< 8 + b) (bits + 8)).2 he2lt
        (fun x hx => hlt x (by simp [hx]))
    simp only [encodeBytes, List.length_cons]
    set e := emitLoop 5 (bits + 8) (buffer <<< 8 + b) (bits + 8) with he
    set r := encodeBytes t (buffer <<< 8 + b) e.2 with hr
    have hmod5 : (e.2 + 8 * t.length) % 5 = (bits + 8 * (t.length + 1)) % 5 := by
      rw [he2]; omega
    refine ⟨?_, ?_, ?_, ?_⟩
    · rw [hr1, hshl, radix_cons]
      ring
    · rw [hr2, hmod5]
    · rw [List.length_append, helen, hr3, he2]
      omega
    · -- value identity for the combined digit stream
      have hstep : buffer % 2 ^ bits * (2 ^ 8) ^ (t.length + 1) + radix (2 ^ 8) (b :: t) =
          (buffer <<< 8 + b) % 2 ^ (bits + 8) * (2 ^ 8) ^ t.length + radix (2 ^ 8) t := by
        rw [hshl, shiftIn_mod buffer bits 8 b hb, radix_cons]
        ring
      rw [hstep, heval]
      have hexp : 2 ^ ((bits + 8) % 5) * (2 ^ 8) ^ t.length =
          (2 ^ 5) ^ r.1.length * 2 ^ ((bits + 8 * (t.length + 1)) % 5) := by
        rw [← Nat.pow_mul, ← Nat.pow_mul, ← Nat.pow_add, ← Nat.pow_add]
        congr 1
        rw [hr3, he2]
        omega
      calc (radix (2 ^ 5) e.1 * 2 ^ ((bits + 8) % 5) +
              (buffer <<< 8 + b) % 2 ^ ((bits + 8) % 5)) * (2 ^ 8) ^ t.length +
            radix (2 ^ 8) t
          = radix (2 ^ 5) e.1 * (2 ^ ((bits + 8) % 5) * (2 ^ 8) ^ t.length) +
              ((buffer <<< 8 + b) % 2 ^ e.2 * (2 ^ 8) ^ t.length + radix (2 ^ 8) t) := by
            rw [he2]; ring
        _ = radix (2 ^ 5) e.1 * ((2 ^ 5) ^ r.1.length *
              2 ^ ((bits + 8 * (t.length + 1)) % 5)) +
              (radix (2 ^ 5) r.1 * 2 ^ ((e.2 + 8 * t.length) % 5) +
                r.2.1 % 2 ^ ((e.2 + 8 * t.length) % 5)) := by
            rw [hexp, hrval]
        _ = radix (2 ^ 5) (e.1 ++ r.1) * 2 ^ ((bits + 8 * (t.length + 1)) % 5) +
              r.2.1 % 2 ^ ((bits + 8 * (t.length + 1)) % 5) := by
            rw [radix_append, hmod5]
            ring

theorem jsIndexOf_toChar (v : Nat) (h : v < 32) :
    jsIndexOf alphabet (toChar v) = some v := by
  have hall : ∀ x : Fin 32, jsIndexOf alphabet (toChar x.val) = some x.val := by decide
  exact hall ⟨v, h⟩

theorem toChar_ne_tilde (v : Nat) (h : v < 32) : toChar v ≠ '~' := by
  have hall : ∀ x : Fin 32, toChar x.val ≠ '~' := by decide
  exact hall ⟨v, h⟩

theorem toChar_mem (v : Nat) (h : v < 32) : toChar v ∈ alphabet := by
  have hall : ∀ x : Fin 32, toChar x.val ∈ alphabet := by decide
  exact hall ⟨v, h⟩

/-- Functional specification of the character-consuming loop of
`base85Decode` on a well-formed symbol stream: it succeeds, and the
emitted bytes are related to the 5-bit digits by the same value
identity. -/
theorem decodeChars_spec :
    ∀ (vals : List Nat) (buffer bits : Nat), bits < 8 → (∀ v ∈ vals, v < 32) →
      ∃ bytes,
        decodeChars (vals.map toChar) buffer bits =
          .ok (bytes, buffer * (2 ^ 5) ^ vals.length + radix (2 ^ 5) vals,
               (bits + 5 * vals.length) % 8) ∧
        bytes.length = (bits + 5 * vals.length) / 8 ∧
        (∀ x ∈ bytes, x < 2 ^ 8) ∧
        buffer % 2 ^ bits * (2 ^ 5) ^ vals.length + radix (2 ^ 5) vals =
          radix (2 ^ 8) bytes * 2 ^ ((bits + 5 * vals.length) % 8) +
            (buffer * (2 ^ 5) ^ vals.length + radix (2 ^ 5) vals) %
              2 ^ ((bits + 5 * vals.length) % 8) := by
  intro vals
  induction vals with
  | nil =>
    intro buffer bits h8 _
    refine ⟨[], ?_, ?_, ?_, ?_⟩ <;>
      simp [decodeChars, radix, Nat.mod_eq_of_lt h8, Nat.div_eq_of_lt h8]
  | cons v vs ih =>
    intro buffer bits h8 hlt
    have hv : v < 32 := hlt v (by simp)
    have hv5 : v < 2 ^ 5 := by norm_num; omega
    have hshl : buffer <<< 5 = buffer * 2 ^ 5 := Nat.shiftLeft_eq buffer 5
    obtain ⟨he2, helen, heval⟩ :=
      emitLoop_spec 8 (by norm_num) (bits + 5) (bits + 5) (buffer <<< 5 + v) le_rfl
    have he2lt : (emitLoop 8 (bits + 5) (buffer <<< 5 + v) (bits + 5)).2 < 8 := by
      rw [he2]; exact Nat.mod_lt _ (by norm_num)
    obtain ⟨bytes2, hIH, hlen2, hmem2, hval2⟩ :=
      ih (buffer <<< 5 + v) (emitLoop 8 (bits + 5) (buffer <<< 5 + v) (bits + 5)).2 he2lt
        (fun x hx => hlt x (by simp [hx]))
    set e := emitLoop 8 (bits + 5) (buffer <<< 5 + v) (bits + 5) with he
    refine ⟨e.1 ++ bytes2, ?_, ?_, ?_, ?_⟩
    · simp only [List.map_cons, decodeChars, jsIndexOf_toChar v hv, hIH]
      have hbuf : (buffer <<< 5 + v) * (2 ^ 5) ^ vs.length + radix (2 ^ 5) vs =
          buffer * (2 ^ 5) ^ (v :: vs).length + radix (2 ^ 5) (v :: vs) := by
        rw [hshl, radix_cons]
        simp only [List.length_cons]
        ring
      have hbits : (e.2 + 5 * vs.length) % 8 = (bits + 5 * (v :: vs).length) % 8 := by
        rw [he2]
        simp only [List.length_cons]
        omega
      rw [hbuf, hbits]
    · simp only [List.length_append, List.length_cons, hlen2, helen, he2]
      have := he2
      omega
    · intro x hx
      rcases List.mem_append.mp hx with hx | hx
      · exact emitLoop_vals_lt 8 (bits + 5) _ _ x hx
      · exact hmem2 x hx
    · simp only [List.length_cons]
      have hstep : buffer % 2 ^ bits * (2 ^ 5) ^ (vs.length + 1) + radix (2 ^ 5) (v :: vs) =
          (buffer <<< 5 + v) % 2 ^ (bits + 5) * (2 ^ 5) ^ vs.length + radix (2 ^ 5) vs := by
        rw [hshl, shiftIn_mod buffer bits 5 v hv5, radix_cons]
        ring
      have hbuf3 : (buffer <<< 5 + v) * (2 ^ 5) ^ vs.length + radix (2 ^ 5) vs =
          buffer * (2 ^ 5) ^ (vs.length + 1) + radix (2 ^ 5) (v :: vs) := by
        rw [hshl, radix_cons]
        ring
      have hmod8 : (e.2 + 5 * vs.length) % 8 = (bits + 5 * (vs.length + 1)) % 8 := by
        rw [he2]; omega
      have hexp : 2 ^ ((bits + 5) % 8) * (2 ^ 5) ^ vs.length =
          (2 ^ 8) ^ bytes2.length * 2 ^ ((bits + 5 * (vs.length + 1)) % 8) := by
        rw [← Nat.pow_mul, ← Nat.pow_mul, ← Nat.pow_add, ← Nat.pow_add]
        congr 1
        rw [hlen2, he2]
        omega
      rw [hstep, heval]
      calc (radix (2 ^ 8) e.1 * 2 ^ ((bits + 5) % 8) +
              (buffer <<< 5 + v) % 2 ^ ((bits + 5) % 8)) * (2 ^ 5) ^ vs.length +
            radix (2 ^ 5) vs
          = radix (2 ^ 8) e.1 * (2 ^ ((bits + 5) % 8) * (2 ^ 5) ^ vs.length) +
              ((buffer <<< 5 + v) % 2 ^ e.2 * (2 ^ 5) ^ vs.length + radix (2 ^ 5) vs) := by
            rw [he2]; ring
        _ = radix (2 ^ 8) e.1 * ((2 ^ 8) ^ bytes2.length *
              2 ^ ((bits + 5 * (vs.length + 1)) % 8)) +
              (radix (2 ^ 8) bytes2 * 2 ^ ((e.2 + 5 * vs.length) % 8) +
                ((buffer <<< 5 + v) * (2 ^ 5) ^ vs.length + radix (2 ^ 5) vs) %
                  2 ^ ((e.2 + 5 * vs.length) % 8)) := by
            rw [hexp, hval2]
        _ = radix (2 ^ 8) (e.1 ++ bytes2) * 2 ^ ((bits + 5 * (vs.length + 1)) % 8) +
              (buffer * (2 ^ 5) ^ (vs.length + 1) + radix (2 ^ 5) (v :: vs)) %
                2 ^ ((bits + 5 * (vs.length + 1)) % 8) := by
            rw [radix_append, hmod8, hbuf3]
            ring

theorem dropWhile_tilde_of_forall (l : List Char) (h : ∀ c ∈ l, c ≠ '~') :
    l.dropWhile (fun c => c = '~') = l := by
  cases l with
  | nil => rfl
  | cons c t =>
    apply List.dropWhile_cons_of_neg
    simpa using h c (by simp)

theorem dropWhile_tilde_replicate_append (p : Nat) (l : List Char) :
    (List.replicate p '~' ++ l).dropWhile (fun c => c = '~') =
      l.dropWhile (fun c => c = '~') := by
  induction p with
  | zero => simp
  | succ p ih => simpa [List.replicate_succ] using ih

/-- A tilde-free string is untouched by the `/~+$/` strip. -/
theorem dropTrailingTildes_of_no_tilde (l : List Char) (h : ∀ c ∈ l, c ≠ '~') :
    dropTrailingTildes l = l := by
  unfold dropTrailingTildes
  rw [dropWhile_tilde_of_forall _ (fun c hc => h c (List.mem_reverse.mp hc))]
  simp

/-- Stripping `/~+$/` from `body ++ [c] ++ '~'*p` with `c ≠ '~'` recovers
exactly `body ++ [c]`. -/
theorem dropTrailingTildes_spec (xs : List Char) (c : Char) (hc : c ≠ '~') (p : Nat) :
    dropTrailingTildes (xs ++ [c] ++ List.replicate p '~') = xs ++ [c] := by
  unfold dropTrailingTildes
  rw [List.reverse_append, List.reverse_replicate, List.reverse_append]
  rw [dropWhile_tilde_replicate_append]
  simp only [List.reverse_cons, List.reverse_nil, List.nil_append, List.singleton_append]
  rw [List.dropWhile_cons_of_neg (by simpa using hc)]
  simp

/-- Central round-trip fact for the radix-85 transform: decoding an
encoding returns the input bytes, except that a spurious trailing zero
byte survives exactly for 2-byte inputs (there `totalBytesEstimate`
degenerates to `1` and `expectedLength` overshoots by one). -/
theorem base85_roundtrip_aux (B : List Nat) (hB : ∀ b ∈ B, b < 256) :
    base85Decode (base85Encode B) = .ok (if B.length = 2 then B ++ [0] else B) := by
  obtain ⟨h1, h2, h3, h4⟩ := encodeBytes_spec B 0 0 (by norm_num) hB
  simp only [Nat.zero_add, Nat.zero_mul, Nat.zero_mod, Nat.pow_zero, Nat.mod_one,
    Nat.add_zero, Nat.mul_one, Nat.one_mul] at h1 h2 h3 h4
  have hvals : ∀ v ∈ (encodeBytes B 0 0).1, v < 32 := fun v hv =>
    encodeBytes_vals_lt B 0 0 v hv
  have hB8 : ∀ b ∈ B, b < 2 ^ 8 := by intro b hb; have := hB b hb; norm_num; omega
  by_cases hz : (encodeBytes B 0 0).2.2 = 0
  · -- Case A: no leftover bits, no final symbol, no filler
    have hz' : (8 * B.length) % 5 = 0 := by rw [← h2]; exact hz
    have henc : base85Encode B = (encodeBytes B 0 0).1.map toChar := by
      simp only [base85Encode]
      rw [if_neg (by omega)]
    have h5L : 5 * (encodeBytes B 0 0).1.length = 8 * B.length := by
      rw [h3]; omega
    have hnotilde : ∀ c ∈ (encodeBytes B 0 0).1.map toChar, c ≠ '~' := by
      intro c hc
      obtain ⟨v, hv, rfl⟩ := List.mem_map.mp hc
      exact toChar_ne_tilde v (hvals v hv)
    have htrim : dropTrailingTildes ((encodeBytes B 0 0).1.map toChar) =
        (encodeBytes B 0 0).1.map toChar :=
      dropTrailingTildes_of_no_tilde _ hnotilde
    obtain ⟨D, hD, hDlen, hDmem, hDval⟩ :=
      decodeChars_spec (encodeBytes B 0 0).1 0 0 (by norm_num) hvals
    simp only [Nat.zero_add, Nat.zero_mul, Nat.zero_mod, Nat.pow_zero, Nat.mod_one,
      Nat.add_zero, Nat.mul_one, Nat.one_mul] at hD hDlen hDval
    have hmod0 : (5 * (encodeBytes B 0 0).1.length) % 8 = 0 := by omega
    have hDlen' : D.length = B.length := by rw [hDlen]; omega
    rw [hmod0] at hD
    rw [hmod0] at hDval
    simp only [Nat.pow_zero, Nat.mod_one, Nat.mul_one, Nat.add_zero] at hD hDval
    rw [hz'] at h4
    simp only [Nat.pow_zero, Nat.mod_one, Nat.mul_one, Nat.add_zero] at h4
    have hDB : D = B := by
      refine radix_ext (2 ^ 8) (by norm_num) D B hDlen' hDmem hB8 ?_
      omega
    rw [hDB] at hD
    have hlenmap : ((encodeBytes B 0 0).1.map toChar).length =
        (encodeBytes B 0 0).1.length := List.length_map _ _
    have hraw : rawEstimate ((encodeBytes B 0 0).1.map toChar) = (B.length : Int) := by
      simp only [rawEstimate, htrim, hlenmap, Nat.sub_self, Nat.cast_zero, Nat.zero_mul]
      rw [Int.fdiv_eq_ediv _ (by norm_num)]
      push_cast
      omega
    rw [henc]
    simp only [base85Decode, htrim, hD]
    rw [if_neg (by omega : ¬ ((0 : Nat) < 0))]
    simp only [totalBytesEstimate, jsOrOne, hraw, hlenmap, Nat.sub_self, Nat.cast_zero,
      add_zero]
    by_cases hN0 : B.length = 0
    · have hBnil : B = [] := List.length_eq_zero.mp hN0
      rw [if_pos (by rw [hN0]; norm_num), if_neg (by omega)]
      subst hBnil
      simp [popToLength]
    · rw [if_neg (by exact_mod_cast hN0)]
      have hN2 : B.length ≠ 2 := by omega
      rw [if_neg hN2]
      simp only [popToLength]
      rw [if_pos le_rfl]
  · -- Case B: leftover bits, final padded symbol plus filler characters
    have hbbpos : 0 < (encodeBytes B 0 0).2.2 := Nat.pos_of_ne_zero hz
    have hbb4 : (encodeBytes B 0 0).2.2 ≤ 4 := by
      have : (8 * B.length) % 5 < 5 := Nat.mod_lt _ (by norm_num)
      omega
    have hNpos : B.length ≠ 0 := by
      intro h0
      rw [h0] at h2
      simp at h2
      omega
    have henc : base85Encode B = (encodeBytes B 0 0).1.map toChar ++
        [toChar (((encodeBytes B 0 0).2.1 <<< (5 - (encodeBytes B 0 0).2.2)) % 32)] ++
        List.replicate (if B.length % 4 = 0 then 0 else 4 - B.length % 4) '~' := by
      simp only [base85Encode]
      rw [if_pos hbbpos]
    have hvf32 : ((encodeBytes B 0 0).2.1 <<< (5 - (encodeBytes B 0 0).2.2)) % 32 < 32 :=
      Nat.mod_lt _ (by norm_num)
    have hvf : ((encodeBytes B 0 0).2.1 <<< (5 - (encodeBytes B 0 0).2.2)) % 32 =
        (encodeBytes B 0 0).2.1 % 2 ^ (encodeBytes B 0 0).2.2 *
          2 ^ (5 - (encodeBytes B 0 0).2.2) := by
      rw [Nat.shiftLeft_eq]
      have hsum : (encodeBytes B 0 0).2.2 + (5 - (encodeBytes B 0 0).2.2) = 5 := by
        omega
      have h32 : (32 : Nat) = 2 ^ (encodeBytes B 0 0).2.2 *
          2 ^ (5 - (encodeBytes B 0 0).2.2) := by
        rw [← Nat.pow_add, hsum]
      rw [h32, Nat.mul_mod_mul_right]
    have hvals' : ∀ v ∈ (encodeBytes B 0 0).1 ++
        [((encodeBytes B 0 0).2.1 <<< (5 - (encodeBytes B 0 0).2.2)) % 32], v < 32 := by
      intro v hv
      rcases List.mem_append.mp hv with hv | hv
      · exact hvals v hv
      · have := List.mem_singleton.mp hv
        subst this
        exact hvf32
    obtain ⟨D, hD, hDlen, hDmem, hDval⟩ :=
      decodeChars_spec ((encodeBytes B 0 0).1 ++
        [((encodeBytes B 0 0).2.1 <<< (5 - (encodeBytes B 0 0).2.2)) % 32]) 0 0
        (by norm_num) hvals'
    simp only [Nat.zero_add, Nat.zero_mul, Nat.zero_mod, Nat.pow_zero, Nat.mod_one,
      Nat.add_zero, Nat.mul_one, Nat.one_mul, List.length_append,
      List.length_singleton] at hD hDlen hDval
    rw [← h2] at h4
    have hlen5 : 5 * ((encodeBytes B 0 0).1.length + 1) =
        8 * B.length + (5 - (encodeBytes B 0 0).2.2) := by
      rw [h3]
      omega
    have hmod8 : (5 * ((encodeBytes B 0 0).1.length + 1)) % 8 =
        5 - (encodeBytes B 0 0).2.2 := by omega
    have hdiv8 : (5 * ((encodeBytes B 0 0).1.length + 1)) / 8 = B.length := by omega
    have hpow5 : (2 : Nat) ^ (encodeBytes B 0 0).2.2 *
        2 ^ (5 - (encodeBytes B 0 0).2.2) = 2 ^ 5 := by
      rw [← Nat.pow_add]
      congr 1
      omega
    have hradix : radix (2 ^ 5) ((encodeBytes B 0 0).1 ++
        [((encodeBytes B 0 0).2.1 <<< (5 - (encodeBytes B 0 0).2.2)) % 32]) =
        2 ^ (5 - (encodeBytes B 0 0).2.2) * radix (2 ^ 8) B := by
      rw [radix_append]
      have hone : radix (2 ^ 5)
          [((encodeBytes B 0 0).2.1 <<< (5 - (encodeBytes B 0 0).2.2)) % 32] =
          ((encodeBytes B 0 0).2.1 <<< (5 - (encodeBytes B 0 0).2.2)) % 32 := by
        simp [radix]
      rw [hone, hvf, h4, List.length_singleton, pow_one, ← hpow5]
      ring
    have hradmod : radix (2 ^ 5) ((encodeBytes B 0 0).1 ++
        [((encodeBytes B 0 0).2.1 <<< (5 - (encodeBytes B 0 0).2.2)) % 32]) %
        2 ^ (5 - (encodeBytes B 0 0).2.2) = 0 := by
      rw [hradix]
      exact Nat.mul_mod_right _ _
    rw [hmod8] at hD hDval
    rw [hradmod, Nat.add_zero] at hDval
    have hradD : radix (2 ^ 8) D = radix (2 ^ 8) B := by
      have hcanc : radix (2 ^ 8) D * 2 ^ (5 - (encodeBytes B 0 0).2.2) =
          radix (2 ^ 8) B * 2 ^ (5 - (encodeBytes B 0 0).2.2) := by
        rw [← hDval, hradix]
        ring
      exact Nat.eq_of_mul_eq_mul_right (Nat.pos_pow_of_pos _ (by norm_num)) hcanc
    have hDlen' : D.length = B.length := by rw [hDlen, hdiv8]
    have hDB : D = B :=
      radix_ext (2 ^ 8) (by norm_num) D B hDlen' hDmem hB8 hradD
    have hflush : (radix (2 ^ 5) ((encodeBytes B 0 0).1 ++
        [((encodeBytes B 0 0).2.1 <<< (5 - (encodeBytes B 0 0).2.2)) % 32]) <<<
        (8 - (5 - (encodeBytes B 0 0).2.2))) % 256 = 0 := by
      rw [Nat.shiftLeft_eq]
      have h256 : (256 : Nat) = 2 ^ (5 - (encodeBytes B 0 0).2.2) *
          2 ^ (8 - (5 - (encodeBytes B 0 0).2.2)) := by
        rw [← Nat.pow_add]
        have hsum8 : (5 - (encodeBytes B 0 0).2.2) +
            (8 - (5 - (encodeBytes B 0 0).2.2)) = 8 := by omega
        rw [hsum8]
      rw [h256, Nat.mul_mod_mul_right, hradmod, Nat.zero_mul]
    have hmapapp : ((encodeBytes B 0 0).1 ++
        [((encodeBytes B 0 0).2.1 <<< (5 - (encodeBytes B 0 0).2.2)) % 32]).map toChar =
        (encodeBytes B 0 0).1.map toChar ++
          [toChar (((encodeBytes B 0 0).2.1 <<< (5 - (encodeBytes B 0 0).2.2)) % 32)] := by
      simp
    rw [hmapapp] at hD
    rw [henc]
    generalize hPdef : (if B.length % 4 = 0 then 0 else 4 - B.length % 4) = P
    have htrim : dropTrailingTildes ((encodeBytes B 0 0).1.map toChar ++
        [toChar (((encodeBytes B 0 0).2.1 <<< (5 - (encodeBytes B 0 0).2.2)) % 32)] ++
        List.replicate P '~') =
        (encodeBytes B 0 0).1.map toChar ++
          [toChar (((encodeBytes B 0 0).2.1 <<< (5 - (encodeBytes B 0 0).2.2)) % 32)] :=
      dropTrailingTildes_spec _ _ (toChar_ne_tilde _ hvf32) _
    have hslen : ((encodeBytes B 0 0).1.map toChar ++
        [toChar (((encodeBytes B 0 0).2.1 <<< (5 - (encodeBytes B 0 0).2.2)) % 32)] ++
        List.replicate P '~').length = (encodeBytes B 0 0).1.length + 1 + P := by
      simp <;> omega
    have htlen : ((encodeBytes B 0 0).1.map toChar ++
        [toChar (((encodeBytes B 0 0).2.1 <<< (5 - (encodeBytes B 0 0).2.2)) % 32)]).length =
        (encodeBytes B 0 0).1.length + 1 := by
      simp
    have hraw : rawEstimate ((encodeBytes B 0 0).1.map toChar ++
        [toChar (((encodeBytes B 0 0).2.1 <<< (5 - (encodeBytes B 0 0).2.2)) % 32)] ++
        List.replicate P '~') = (B.length : Int) - P := by
      simp only [rawEstimate, htrim, hslen, htlen]
      rw [Int.fdiv_eq_ediv _ (by norm_num)]
      push_cast
      omega
    simp only [base85Decode, htrim, hD, totalBytesEstimate, jsOrOne, hraw, hslen, htlen]
    rw [if_pos (by omega : 0 < 5 - (encodeBytes B 0 0).2.2)]
    rw [hflush, hDB]
    have hsub : (encodeBytes B 0 0).1.length + 1 + P - ((encodeBytes B 0 0).1.length + 1) =
        P := by omega
    rw [hsub]
    by_cases hN2 : B.length = 2
    · have hP2 : P = 2 := by rw [← hPdef, hN2]; norm_num
      rw [if_pos hN2]
      rw [if_pos (by rw [hP2, hN2]; norm_num : ((B.length : Int) - P = 0))]
      simp only [popToLength]
      rw [if_pos (by simp only [List.length_append, List.length_singleton]; push_cast; omega)]
    · have hBneP : B.length ≠ P := by
        rw [← hPdef]
        by_cases hm4 : B.length % 4 = 0
        · rw [if_pos hm4]; omega
        · rw [if_neg hm4]; omega
      have hPneN : ((B.length : Int) - P ≠ 0) := by omega
      rw [if_neg hN2, if_neg hPneN]
      simp only [popToLength]
      rw [if_neg (by simp only [List.length_append, List.length_singleton]; push_cast; omega)]
      have htoNat : ((B.length : Int) - P + P).toNat = B.length := by omega
      rw [htoNat, List.take_left]

theorem jsIndexOf_eq_none_of_not_mem (l : List Char) (c : Char) (h : c ∉ l) :
    jsIndexOf l c = none := by
  induction l with
  | nil => rfl
  | cons d t ih =>
    simp only [jsIndexOf]
    rw [if_neg (fun hdc => h (by rw [← hdc]; exact List.mem_cons_self d t)),
      ih (fun hm => h (List.mem_cons_of_mem _ hm))]

/-- A symbol outside the alphabet anywhere in the walked string makes the
decode loop fail with the invalid-symbol error. -/
theorem decodeChars_error (l : List Char) (c : Char) (hc : c ∈ l) (hnot : c ∉ alphabet) :
    ∀ buffer bits, decodeChars l buffer bits = .error .invalidSymbol := by
  induction l with
  | nil => cases hc
  | cons d t ih =>
    intro buffer bits
    rcases List.mem_cons.mp hc with rfl | hct
    · simp [decodeChars, jsIndexOf_eq_none_of_not_mem alphabet c hnot]
    · cases hj : jsIndexOf alphabet d with
      | none => simp [decodeChars, hj]
      | some v =>
        simp only [decodeChars, hj]
        rw [ih hct]

theorem encodeBytes_bits_lt (bytes : List Nat) :
    ∀ buffer bits, bits < 5 → (encodeBytes bytes buffer bits).2.2 < 5 := by
  induction bytes with
  | nil => intro buffer bits h; simpa [encodeBytes] using h
  | cons b t ih =>
    intro buffer bits h
    simp only [encodeBytes]
    apply ih
    obtain ⟨h2, _, _⟩ :=
      emitLoop_spec 5 (by norm_num) (bits + 8) (bits + 8) (buffer <<< 8 + b) le_rfl
    rw [h2]
    exact Nat.mod_lt _ (by norm_num)

theorem utf8Encode_append (s t : List Char) :
    utf8Encode (s ++ t) = utf8Encode s ++ utf8Encode t := by
  simp [utf8Encode]

/-- A character other than `':'` never contributes the colon byte 58 to a
UTF-8 encoding: an ASCII character encodes as its own code, and every
byte of a multi-byte sequence is at least `0x80`. -/
theorem utf8EncodeChar_no_colon (c : Char) (hc : c ≠ ':') : 58 ∉ utf8EncodeChar c := by
  unfold utf8EncodeChar
  by_cases h1 : c.toNat < 0x80
  · simp only [if_pos h1, List.mem_singleton]
    intro h58
    apply hc
    have := Char.ofNat_toNat c
    rw [← h58] at this
    exact this.symm
  · by_cases h2 : c.toNat < 0x800
    · simp only [if_neg h1, if_pos h2, List.mem_cons, List.not_mem_nil, or_false]
      omega
    · by_cases h3 : c.toNat < 0x10000
      · simp only [if_neg h1, if_neg h2, if_pos h3, List.mem_cons, List.not_mem_nil,
          or_false]
        omega
      · simp only [if_neg h1, if_neg h2, if_neg h3, List.mem_cons, List.not_mem_nil,
          or_false]
        omega

theorem utf8_no_colon (T : List Char) (hT : ':' ∉ T) : 58 ∉ utf8Encode T := by
  simp only [utf8Encode, List.mem_flatten, List.mem_map]
  rintro ⟨l, ⟨c, hcT, rfl⟩, h58⟩
  exact utf8EncodeChar_no_colon c (fun hceq => hT (hceq ▸ hcT)) h58

theorem jsIndexOfNat_first_colon (xs ys : List Nat) (hxs : 58 ∉ xs) :
    jsIndexOfNat (xs ++ 58 :: ys) 58 = some xs.length := by
  induction xs with
  | nil => simp [jsIndexOfNat]
  | cons d t ih =>
    have hd : d ≠ 58 := fun hd => hxs (by rw [← hd]; exact List.mem_cons_self d t)
    have ih' := ih (fun hm => hxs (List.mem_cons_of_mem _ hm))
    simp only [List.cons_append, jsIndexOfNat, if_neg hd, List.append_eq, ih',
      List.length_cons]

/-- Splitting `tagBytes ++ 0x3A ++ data` at the first colon byte recovers
the pair exactly, for a colon-free tag — the payload bytes after the
first colon come back untouched. -/
theorem unframeBytes_frame (tagBytes data : List Nat) (h : 58 ∉ tagBytes) :
    unframeBytes (tagBytes ++ 58 :: data) = .ok (tagBytes, data) := by
  simp only [unframeBytes, jsIndexOfNat_first_colon _ _ h]
  have htake : (tagBytes ++ 58 :: data).take tagBytes.length = tagBytes :=
    List.take_left _ _
  have hdrop : (tagBytes ++ 58 :: data).drop (tagBytes.length + 1) = data := by
    rw [show tagBytes ++ 58 :: data = (tagBytes ++ [58]) ++ data by simp]
    rw [show tagBytes.length + 1 = (tagBytes ++ [58]).length by simp]
    exact List.drop_left _ _
  rw [htake, hdrop]

theorem utf8Encode_tag_colon (T : List Char) (B' : List Nat) :
    utf8Encode (T ++ [':']) ++ B' = utf8Encode T ++ 58 :: B' := by
  rw [utf8Encode_append, show utf8Encode [':'] = [58] from by decide]
  simp

/-- C2 counterexample: the radix-85 transform alone is NOT lossless for
every input length.  For the 2-byte input `[0, 0]` the decoder returns
`[0, 0, 0]` — the spurious flush byte survives because
`totalBytesEstimate` degenerates to `1` and `expectedLength` becomes
`3`. -/
theorem c2_base85_roundtrip_counterexample :
    base85Decode (base85Encode [0, 0]) ≠ Except.ok [0, 0] := by decide

/-- C2 (amended): for every byte sequence `B`, decoding the encoding of
`B` yields exactly `B` when `B.length ≠ 2`; for 2-byte inputs it yields
`B` with one extra zero byte appended. -/
theorem c2_base85_roundtrip_amended (B : List Nat) (hB : ∀ b ∈ B, b < 256) :
    base85Decode (base85Encode B) = .ok (if B.length = 2 then B ++ [0] else B) :=
  base85_roundtrip_aux B hB

/-- Witness for C2 (amended) at the concrete inputs `[10, 20, 30]`
(length ≠ 2, exact round-trip) and `[0, 0]` (length 2, extra byte). -/
theorem c2_base85_roundtrip_amended_witness :
    base85Decode (base85Encode [10, 20, 30]) = .ok [10, 20, 30] ∧
    base85Decode (base85Encode [0, 0]) = .ok [0, 0, 0] := by
  constructor
  · have h := c2_base85_roundtrip_amended [10, 20, 30] (by decide)
    simpa using h
  · have h := c2_base85_roundtrip_amended [0, 0] (by decide)
    simpa using h

/-- C4 counterexample: for the input string `"~"` the raw estimate
formula yields `⌊(0·5 − 1·8)/8⌋ = −1 ≤ 0`, yet the estimate actually
used is `−1`, not `1`: the JS `|| 1` only catches the falsy value `0`,
negative numbers pass through. -/
theorem c4_estimate_counterexample :
    rawEstimate ['~'] ≤ 0 ∧ totalBytesEstimate ['~'] ≠ 1 := by decide

/-- C4 (amended): the decoder's estimate is replaced by `1` exactly when
the raw formula yields `0`; any other value — including every negative
one — is used unchanged. -/
theorem c4_estimate_amended (s : List Char) :
    (rawEstimate s = 0 → totalBytesEstimate s = 1) ∧
    (rawEstimate s ≠ 0 → totalBytesEstimate s = rawEstimate s) := by
  constructor <;> intro h <;> simp [totalBytesEstimate, jsOrOne, h]

/-- Witness for C4 (amended): the empty string has raw estimate `0` and
uses `1`; the string `"~"` has raw estimate `−1` and uses `−1`. -/
theorem c4_estimate_amended_witness :
    totalBytesEstimate [] = 1 ∧ totalBytesEstimate ['~'] = rawEstimate ['~'] :=
  ⟨(c4_estimate_amended []).1 (by decide), (c4_estimate_amended ['~']).2 (by decide)⟩

/-- C5: whenever unconsumed bits remain after the main encoding loop,
they number 1–4, the encoder emits exactly one final symbol built from
the accumulator left-shifted to 5 bits, and appends exactly
`(4 − (N mod 4)) mod 4` filler tildes, where `N` is the input byte
count. -/
theorem c5_encode_padding (B : List Nat) (hbits : (encodeBytes B 0 0).2.2 ≠ 0) :
    (1 ≤ (encodeBytes B 0 0).2.2 ∧ (encodeBytes B 0 0).2.2 ≤ 4) ∧
    base85Encode B =
      (encodeBytes B 0 0).1.map toChar ++
        [toChar (((encodeBytes B 0 0).2.1 <<< (5 - (encodeBytes B 0 0).2.2)) % 32)] ++
        List.replicate ((4 - B.length % 4) % 4) '~' := by
  have hlt : (encodeBytes B 0 0).2.2 < 5 := encodeBytes_bits_lt B 0 0 (by norm_num)
  refine ⟨⟨by omega, by omega⟩, ?_⟩
  simp only [base85Encode]
  rw [if_pos (Nat.pos_of_ne_zero hbits)]
  have hpad : (if B.length % 4 = 0 then 0 else 4 - B.length % 4) =
      (4 - B.length % 4) % 4 := by
    by_cases h4 : B.length % 4 = 0
    · rw [if_pos h4]
      omega
    · rw [if_neg h4]
      omega
  rw [hpad]

/-- Witness for C5 at the concrete input `[0]`: one data symbol, one
padded final symbol, and `(4 − 1 mod 4) mod 4 = 3` filler tildes. -/
theorem c5_encode_padding_witness :
    (1 ≤ (encodeBytes [0] 0 0).2.2 ∧ (encodeBytes [0] 0 0).2.2 ≤ 4) ∧
    base85Encode [0] =
      (encodeBytes [0] 0 0).1.map toChar ++
        [toChar (((encodeBytes [0] 0 0).2.1 <<< (5 - (encodeBytes [0] 0 0).2.2)) % 32)] ++
        List.replicate ((4 - [0].length % 4) % 4) '~' :=
  c5_encode_padding [0] (by decide)

/-- C6: if any character of the input string, after stripping the
trailing filler run, is not in the alphabet, `base85Decode` fails with
the invalid-symbol error. -/
theorem c6_invalid_symbol (s : List Char) (c : Char)
    (hc : c ∈ dropTrailingTildes s) (hnot : c ∉ alphabet) :
    base85Decode s = .error .invalidSymbol := by
  simp only [base85Decode, decodeChars_error (dropTrailingTildes s) c hc hnot 0 0]

/-- Witness for C6 at the spec's own example `"abc&def"`: `&` is not in
the alphabet, so decoding fails with the invalid-symbol error. -/
theorem c6_invalid_symbol_witness :
    base85Decode ['a', 'b', 'c', '&', 'd', 'e', 'f'] = .error .invalidSymbol :=
  c6_invalid_symbol ['a', 'b', 'c', '&', 'd', 'e', 'f'] '&' (by decide) (by decide)

/-- C3: the frame is the tag's bytes, one colon byte (58), then the
payload bytes verbatim, and the byte-level split at the first colon
recovers exactly the original pair — even when the payload itself
contains colon bytes. -/
theorem c3_frame_split (T : List Char) (B : List Nat) (hT : ':' ∉ T) :
    utf8Encode (T ++ [':']) ++ B = utf8Encode T ++ 58 :: B ∧
    unframeBytes (utf8Encode T ++ 58 :: B) = .ok (utf8Encode T, B) :=
  ⟨utf8Encode_tag_colon T B, unframeBytes_frame _ _ (utf8_no_colon T hT)⟩

/-- Witness for C3 with tag `"t"` and a payload that itself starts with
a colon byte. -/
theorem c3_frame_split_witness :
    utf8Encode (['t'] ++ [':']) ++ [58, 7] = utf8Encode ['t'] ++ 58 :: [58, 7] ∧
    unframeBytes (utf8Encode ['t'] ++ 58 :: [58, 7]) = .ok (utf8Encode ['t'], [58, 7]) :=
  c3_frame_split ['t'] [58, 7] (by decide)

/-- C8: every character of every produced payload string is in the
alphabet or is the filler tilde, for any input whatsoever. -/
theorem c8_alphabet_closure (B : List Nat) (c : Char) (hc : c ∈ base85Encode B) :
    c ∈ alphabet ∨ c = '~' := by
  have hvals : ∀ v ∈ (encodeBytes B 0 0).1, v < 32 := fun v hv =>
    encodeBytes_vals_lt B 0 0 v hv
  simp only [base85Encode] at hc
  by_cases hz : 0 < (encodeBytes B 0 0).2.2
  · rw [if_pos hz] at hc
    simp only [List.append_assoc, List.mem_append, List.mem_map, List.mem_singleton,
      List.mem_replicate] at hc
    rcases hc with ⟨v, hv, rfl⟩ | rfl | ⟨_, rfl⟩
    · exact Or.inl (toChar_mem v (hvals v hv))
    · exact Or.inl (toChar_mem _ (Nat.mod_lt _ (by norm_num)))
    · exact Or.inr rfl
  · rw [if_neg hz] at hc
    obtain ⟨v, hv, rfl⟩ := List.mem_map.mp hc
    exact Or.inl (toChar_mem v (hvals v hv))

/-- Witness for C8: the filler character of `base85Encode [0]`. -/
theorem c8_alphabet_closure_witness : '~' ∈ alphabet ∨ '~' = '~' :=
  c8_alphabet_closure [0] '~' (by decide)

/-- C7: `compressToUrl` fails with `payloadTooLarge` exactly when the
encoded string's length exceeds `maxSize` (whose default is 2083), the
error carries both the actual and the allowed size, and otherwise the
result is the payload paired with its own length. -/
theorem c7_size_enforcement (gzip : List Nat → List Nat) (input : CompressInput)
    (inputType : InputType) (mimeTypeOpt : Option (List Char)) (nw : Bool)
    (maxSize : Nat) (data : List Nat)
    (hprep : prepareData input inputType nw = .ok data) :
    defaultMaxSize = 2083 ∧
    compressToUrl gzip input maxSize inputType mimeTypeOpt nw =
      (if (base85Encode (gzip (utf8Encode (resolveMime mimeTypeOpt inputType ++ [':'])
            ++ data))).length > maxSize
       then .error (.payloadTooLarge
          (base85Encode (gzip (utf8Encode (resolveMime mimeTypeOpt inputType ++ [':'])
            ++ data))).length maxSize)
       else .ok (base85Encode (gzip (utf8Encode (resolveMime mimeTypeOpt inputType ++ [':'])
            ++ data)),
          (base85Encode (gzip (utf8Encode (resolveMime mimeTypeOpt inputType ++ [':'])
            ++ data))).length)) := by
  refine ⟨rfl, ?_⟩
  simp only [compressToUrl, hprep]

/-- Witness for C7: a one-byte binary input with `maxSize = 0` fails
with `payloadTooLarge 6 0` (the 6-character payload versus the allowed
0). -/
theorem c7_size_enforcement_witness :
    compressToUrl id (.bin [1]) 0 .binary (some ['x']) false =
      .error (.payloadTooLarge 6 0) := by
  have h := (c7_size_enforcement id (.bin [1]) .binary (some ['x']) false 0 [1] rfl).2
  rw [h]
  decide

/-- C1: compressing a byte payload `B` tagged with a colon-free tag `T`
and decompressing the resulting payload (with binary output) recovers
exactly the pair `(T, B)`.  The gzip backend is external library code:
the theorem takes any deflate/inflate pair that round-trips on the
frame, whose output is a byte buffer, and whose output length is not 2
(real gzip output carries a 10-byte header and an 8-byte trailer, so its
length is never 2). -/
theorem c1_compress_decompress_roundtrip (gzip gunzip : List Nat → List Nat)
    (T : List Char) (B : List Nat) (maxSize : Nat) (hT : ':' ∉ T)
    (hinv : gunzip (gzip (utf8Encode (T ++ [':']) ++ B)) = utf8Encode (T ++ [':']) ++ B)
    (hbytes : ∀ b ∈ gzip (utf8Encode (T ++ [':']) ++ B), b < 256)
    (hlen2 : (gzip (utf8Encode (T ++ [':']) ++ B)).length ≠ 2)
    (p : List Char) (s : Nat)
    (hc : compressToUrl gzip (.bin B) maxSize .binary (some T) false = .ok (p, s)) :
    decompressFromUrl gunzip p .binary = .ok (.binary B, utf8Encode T) := by
  simp only [compressToUrl, prepareData, resolveMime] at hc
  by_cases hsize : (base85Encode (gzip (utf8Encode (T ++ [':']) ++ B))).length > maxSize
  · rw [if_pos hsize] at hc
    cases hc
  · rw [if_neg hsize] at hc
    rw [Except.ok.injEq, Prod.mk.injEq] at hc
    obtain ⟨hp, _⟩ := hc
    subst hp
    have hdec : base85Decode (base85Encode (gzip (utf8Encode (T ++ [':']) ++ B))) =
        .ok (gzip (utf8Encode (T ++ [':']) ++ B)) := by
      rw [base85_roundtrip_aux _ hbytes, if_neg hlen2]
    simp only [decompressFromUrl, hdec]
    rw [hinv, utf8Encode_tag_colon T B]
    simp only [unframeBytes_frame _ _ (utf8_no_colon T hT)]
    rfl

/-- Witness for C1: tag `"t"`, payload `[7]`, identity backend. -/
theorem c1_compress_decompress_roundtrip_witness :
    decompressFromUrl id (base85Encode (utf8Encode (['t'] ++ [':']) ++ [7])) .binary =
      .ok (.binary [7], utf8Encode ['t']) :=
  c1_compress_decompress_roundtrip id id ['t'] [7] 2083 (by decide) rfl (by decide)
    (by decide) (base85Encode (utf8Encode (['t'] ++ [':']) ++ [7]))
    (base85Encode (utf8Encode (['t'] ++ [':']) ++ [7])).length (by decide)

/-- C9: the returned representation is a JS string exactly when the
caller asked for `string`, or asked for `auto` and the recovered MIME
tag starts with `text/` or equals `application/json`; `binary` is
honored with raw bytes. -/
theorem c9_output_typing (gunzip : List Nat → List Nat) (payload : List Char)
    (outputType : OutputType) (d : DecompressData) (mime : List Nat)
    (h : decompressFromUrl gunzip payload outputType = .ok (d, mime)) :
    d.isText = (outputType == .string || (outputType == .auto && isTextTypeBytes mime)) := by
  cases hb : base85Decode payload with
  | error e =>
    simp only [decompressFromUrl, hb] at h
    exact Except.noConfusion h
  | ok cb =>
    cases hu : unframeBytes (gunzip cb) with
    | error e =>
      simp only [decompressFromUrl, hb, hu] at h
      exact Except.noConfusion h
    | ok pr =>
      obtain ⟨mt, db⟩ := pr
      simp only [decompressFromUrl, hb, hu] at h
      by_cases hrs : (outputType == .string ||
          (outputType == .auto && isTextTypeBytes mt)) = true
      · rw [if_pos hrs] at h
        rw [Except.ok.injEq, Prod.mk.injEq] at h
        obtain ⟨hd, hm⟩ := h
        subst hd
        subst hm
        rw [hrs]
        rfl
      · rw [if_neg hrs] at h
        rw [Except.ok.injEq, Prod.mk.injEq] at h
        obtain ⟨hd, hm⟩ := h
        subst hd
        subst hm
        simp only [Bool.not_eq_true] at hrs
        rw [hrs]
        rfl

/-- Witness for C9: a payload whose embedded tag is `text/html`,
decompressed with `auto`, comes back as a text value. -/
theorem c9_output_typing_witness :
    (DecompressData.text [104, 105]).isText =
      (OutputType.auto == OutputType.string ||
        (OutputType.auto == OutputType.auto &&
          isTextTypeBytes (utf8Encode textHtmlChars))) :=
  c9_output_typing (fun _ => utf8Encode (textHtmlChars ++ [':']) ++ [104, 105]) [] .auto
    (.text [104, 105]) (utf8Encode textHtmlChars) (by decide)

/-- C10: with `normalizeWhitespace` set on text input, the framed data
is the input with every whitespace run collapsed to one space and the
ends trimmed (`normalizeWs`); decompressing the compressed payload with
`auto` output returns exactly that normalized text under the default
`text/html` tag. -/
theorem c10_whitespace_normalization (gzip gunzip : List Nat → List Nat)
    (input : List Char) (maxSize : Nat)
    (hinv : gunzip (gzip (utf8Encode (textHtmlChars ++ [':']) ++
        utf8Encode (normalizeWs input))) =
      utf8Encode (textHtmlChars ++ [':']) ++ utf8Encode (normalizeWs input))
    (hbytes : ∀ b ∈ gzip (utf8Encode (textHtmlChars ++ [':']) ++
        utf8Encode (normalizeWs input)), b < 256)
    (hlen2 : (gzip (utf8Encode (textHtmlChars ++ [':']) ++
        utf8Encode (normalizeWs input))).length ≠ 2)
    (p : List Char) (s : Nat)
    (hc : compressToUrl gzip (.str input) maxSize .string none true = .ok (p, s)) :
    decompressFromUrl gunzip p .auto =
      .ok (.text (utf8Encode (normalizeWs input)), utf8Encode textHtmlChars) := by
  simp only [compressToUrl, prepareData, resolveMime, if_pos] at hc
  by_cases hsize : (base85Encode (gzip (utf8Encode (textHtmlChars ++ [':']) ++
      utf8Encode (normalizeWs input)))).length > maxSize
  · rw [if_pos hsize] at hc
    cases hc
  · rw [if_neg hsize] at hc
    rw [Except.ok.injEq, Prod.mk.injEq] at hc
    obtain ⟨hp, _⟩ := hc
    subst hp
    have hdec : base85Decode (base85Encode (gzip (utf8Encode (textHtmlChars ++ [':']) ++
        utf8Encode (normalizeWs input)))) =
        .ok (gzip (utf8Encode (textHtmlChars ++ [':']) ++
          utf8Encode (normalizeWs input))) := by
      rw [base85_roundtrip_aux _ hbytes, if_neg hlen2]
    simp only [decompressFromUrl, hdec]
    rw [hinv, utf8Encode_tag_colon textHtmlChars (utf8Encode (normalizeWs input))]
    simp only [unframeBytes_frame _ _ (utf8_no_colon textHtmlChars (by decide))]
    rw [if_pos (by decide)]

/-- Witness for C10: compressing `"  a   b  "` with whitespace
normalization and decompressing yields the text `"a b"` (UTF-8 bytes
`[97, 32, 98]`) under the `text/html` tag. -/
theorem c10_whitespace_normalization_witness :
    decompressFromUrl id
      (base85Encode (utf8Encode (textHtmlChars ++ [':']) ++ [97, 32, 98])) .auto =
      .ok (.text [97, 32, 98], utf8Encode textHtmlChars) :=
  c10_whitespace_normalization id id [' ', ' ', 'a', ' ', ' ', ' ', 'b', ' ', ' '] 2083
    rfl (by decide) (by decide)
    (base85Encode (utf8Encode (textHtmlChars ++ [':']) ++ [97, 32, 98]))
    (base85Encode (utf8Encode (textHtmlChars ++ [':']) ++ [97, 32, 98])).length
    (by decide)

